import Mathlib

/-!
Shallow embedding of the ranking / clustering core of an image-culling
desktop application (Rust sources: `src-tauri/src/ranking.rs`,
`src-tauri/src/hashing.rs`, `src-tauri/src/commands.rs`,
`src-tauri/src/state.rs`).

Modelling conventions:
* Rust `f64` values (`mu`, `sigma`, timestamps) are modelled as real numbers.
* Rust `HashMap<String, V>` values that are only read and written through
  `get` / `get_mut` / `insert` are modelled as association lists
  (`List (String × V)`); functions that iterate over a `HashMap` take the
  iteration order as an explicit list (Rust's iteration order is
  unspecified, which is itself the subject of one of the theorems below).
* `Vec` push / pop / split_off become list append / getLast / dropLast / drop.
* Fallible commands (`Result<T, String>`) become `Except String`.
* The `persistent.save()` I/O effect is outside the model: commands return
  the mutated in-memory state.
-/

namespace PhotoTinder

/-! ### Association lists (model of `HashMap<String, V>` access) -/

/-- First value stored under key `q` (model of `HashMap::get`). -/
def lookupA {α : Type} : List (String × α) → String → Option α
  | [], _ => none
  | (k, v) :: t, q => if k = q then some v else lookupA t q

/-- Apply `f` to the value stored under `k`, leaving the map unchanged when
`k` is absent (model of `if let Some(v) = map.get_mut(k) { … }`). -/
def updA {α : Type} (m : List (String × α)) (k : String) (f : α → α) :
    List (String × α) :=
  m.map (fun p => if p.1 = k then (p.1, f p.2) else p)

/-- `HashMap::insert`: replace the value when the key is present, otherwise
add a new entry. -/
def insertA {α : Type} (m : List (String × α)) (k : String) (v : α) :
    List (String × α) :=
  if (lookupA m k).isSome then updA m k (fun _ => v) else m ++ [(k, v)]

/-- Keys of an association list. -/
def keysA {α : Type} (m : List (String × α)) : List String :=
  m.map Prod.fst

@[simp] theorem lookupA_nil {α : Type} (q : String) :
    lookupA ([] : List (String × α)) q = none := rfl

@[simp] theorem lookupA_cons {α : Type} (k : String) (v : α) (t : List (String × α))
    (q : String) :
    lookupA ((k, v) :: t) q = if k = q then some v else lookupA t q := rfl

@[simp] theorem keysA_nil {α : Type} : keysA ([] : List (String × α)) = [] := rfl

@[simp] theorem keysA_cons {α : Type} (p : String × α) (t : List (String × α)) :
    keysA (p :: t) = p.1 :: keysA t := rfl

theorem keysA_append {α : Type} (m₁ m₂ : List (String × α)) :
    keysA (m₁ ++ m₂) = keysA m₁ ++ keysA m₂ := by
  simp [keysA]

theorem lookupA_updA {α : Type} (m : List (String × α)) (k : String) (f : α → α)
    (q : String) :
    lookupA (updA m k f) q =
      if k = q then (lookupA m q).map f else lookupA m q := by
  induction m with
  | nil => by_cases h : k = q <;> simp [updA, h]
  | cons p t ih =>
    obtain ⟨pk, pv⟩ := p
    simp only [updA, List.map_cons] at ih ⊢
    by_cases hpk : pk = k
    · subst hpk
      by_cases hq : pk = q
      · subst hq; simp
      · simp [hq, ih]
    · by_cases hq : pk = q
      · subst hq
        have hkq : ¬ k = pk := fun h => hpk h.symm
        simp [hpk, hkq]
      · simp [hpk, hq, ih]

theorem lookupA_updA_self {α : Type} (m : List (String × α)) (k : String)
    (f : α → α) :
    lookupA (updA m k f) k = (lookupA m k).map f := by
  simp [lookupA_updA]

theorem lookupA_updA_ne {α : Type} (m : List (String × α)) (k : String)
    (f : α → α) (q : String) (h : k ≠ q) :
    lookupA (updA m k f) q = lookupA m q := by
  simp [lookupA_updA, h]

theorem keysA_updA {α : Type} (m : List (String × α)) (k : String) (f : α → α) :
    keysA (updA m k f) = keysA m := by
  induction m with
  | nil => rfl
  | cons p t ih =>
    obtain ⟨pk, pv⟩ := p
    by_cases hpk : pk = k <;> simp [updA, keysA, hpk] at ih ⊢ <;> exact ih

theorem lookupA_append {α : Type} (m₁ m₂ : List (String × α)) (q : String) :
    lookupA (m₁ ++ m₂) q =
      match lookupA m₁ q with
      | some v => some v
      | none => lookupA m₂ q := by
  induction m₁ with
  | nil => simp
  | cons p t ih =>
    obtain ⟨pk, pv⟩ := p
    by_cases hpq : pk = q <;> simp [hpq, ih]

theorem lookupA_insertA_self {α : Type} (m : List (String × α)) (k : String)
    (v : α) :
    lookupA (insertA m k v) k = some v := by
  unfold insertA
  by_cases h : (lookupA m k).isSome
  · rw [if_pos h, lookupA_updA_self]
    obtain ⟨w, hw⟩ := Option.isSome_iff_exists.mp h
    simp [hw]
  · rw [if_neg h, lookupA_append]
    have : lookupA m k = none := by
      cases hl : lookupA m k
      · rfl
      · exact absurd (by simp [hl]) h
    simp [this]

theorem lookupA_insertA_ne {α : Type} (m : List (String × α)) (k : String)
    (v : α) (q : String) (h : k ≠ q) :
    lookupA (insertA m k v) q = lookupA m q := by
  unfold insertA
  by_cases hs : (lookupA m k).isSome
  · rw [if_pos hs, lookupA_updA_ne _ _ _ _ h]
  · rw [if_neg hs, lookupA_append]
    cases hl : lookupA m q
    · simp [h]
    · simp

theorem lookupA_isSome_of_mem_keys {α : Type} (m : List (String × α))
    (k : String) (h : k ∈ keysA m) : (lookupA m k).isSome := by
  induction m with
  | nil => simp [keysA] at h
  | cons p t ih =>
    obtain ⟨pk, pv⟩ := p
    by_cases hpk : pk = k
    · subst hpk; simp
    · simp [keysA, hpk] at h
      rcases h with h | h
      · exact absurd h.symm hpk
      · simpa [hpk] using ih (by simpa [keysA] using h)

theorem lookupA_none_of_not_mem_keys {α : Type} (m : List (String × α))
    (k : String) (h : k ∉ keysA m) : lookupA m k = none := by
  induction m with
  | nil => rfl
  | cons p t ih =>
    obtain ⟨pk, pv⟩ := p
    simp [keysA] at h
    have hne : ¬ pk = k := fun hh => h.1 hh.symm
    simp [hne]
    exact ih (by simp [keysA, h.2])

theorem mem_keys_of_lookupA_isSome {α : Type} (m : List (String × α))
    (k : String) (h : (lookupA m k).isSome) : k ∈ keysA m := by
  by_contra hk
  rw [lookupA_none_of_not_mem_keys m k hk] at h
  simp at h

/-! ### Data model (`state.rs`) -/

/-- `PhotoRating` from `state.rs` (`mu`, `sigma` are `f64`, modelled as ℝ). -/
structure PhotoRating where
  mu : ℝ
  sigma : ℝ
  matches_played : Nat

/-- `impl Default for PhotoRating`. -/
def PhotoRating.default : PhotoRating := ⟨1500, 350, 0⟩

/-- `Cluster` from `state.rs`. -/
structure Cluster where
  id : String
  photo_ids : List String
  representative_id : Option String
  internal_ranking_complete : Bool

/-- `ComparisonRecord` from `state.rs`. -/
structure ComparisonRecord where
  left_id : String
  right_id : String
  result : String
  left_mu_before : ℝ
  left_sigma_before : ℝ
  right_mu_before : ℝ
  right_sigma_before : ℝ
  timestamp : ℝ

/-- `RankingState` from `state.rs`.  The `clusters` HashMap is modelled as
the list of its values in iteration order (`compare` and pair selection only
ever iterate over `values()`; the keys duplicate `Cluster.id`). -/
structure RankingState where
  initialized : Bool
  ratings : List (String × PhotoRating)
  clusters : List Cluster
  photo_to_cluster : List (String × String)
  comparison_history : List ComparisonRecord
  total_comparisons : Nat
  phase : String
  photo_count : Nat
  cluster_count : Nat

/-- `UndoResult` from `commands.rs`. -/
structure UndoResult where
  success : Bool
  message : String
  image_id : Option String

/-! ### Glicko rating engine (`ranking.rs`) -/

/-- `GLICKO_Q` (the source hard-codes the literal `0.0057565`). -/
def GLICKO_Q : ℝ := 0.0057565

/-- `DEFAULT_MU`. -/
def DEFAULT_MU : ℝ := 1500

/-- `DEFAULT_SIGMA`. -/
def DEFAULT_SIGMA : ℝ := 350

/-- `MIN_SIGMA` (the spec calls this `SIGMA_FLOOR`). -/
def MIN_SIGMA : ℝ := 50

/-- `glicko_g`: reduces impact based on opponent uncertainty. -/
noncomputable def glicko_g (sigma : ℝ) : ℝ :=
  1 / Real.sqrt (1 + 3 * GLICKO_Q ^ 2 * sigma ^ 2 / Real.pi ^ 2)

/-- `glicko_expected_score`: expected score for player A vs player B
(`10_f64.powf` becomes real exponentiation). -/
noncomputable def glicko_expected_score (mu_a mu_b sigma_b : ℝ) : ℝ :=
  1 / (1 + (10 : ℝ) ^ (-(glicko_g sigma_b) * (mu_a - mu_b) / 400))

/-- `d_squared` closure inside `glicko_update`. -/
noncomputable def glicko_d_squared (sigma_opp e : ℝ) : ℝ :=
  1 / (GLICKO_Q ^ 2 * (glicko_g sigma_opp) ^ 2 * e * (1 - e) + 1e-10)

/-- `glicko_update`: update both ratings after a comparison; returns
`((new_winner_mu, new_winner_sigma), (new_loser_mu, new_loser_sigma))`.
The new mu values use the pre-floor new sigma values, exactly as in the
source (the floor is applied by shadowing afterwards). -/
noncomputable def glicko_update (winner_mu winner_sigma loser_mu loser_sigma : ℝ)
    (is_tie : Bool) : (ℝ × ℝ) × (ℝ × ℝ) :=
  let s_winner : ℝ := if is_tie then 0.5 else 1.0
  let s_loser : ℝ := if is_tie then 0.5 else 0.0
  let e_winner := glicko_expected_score winner_mu loser_mu loser_sigma
  let e_loser := glicko_expected_score loser_mu winner_mu winner_sigma
  let d2_winner := glicko_d_squared loser_sigma e_winner
  let d2_loser := glicko_d_squared winner_sigma e_loser
  let new_sigma_winner := Real.sqrt (1 / (1 / winner_sigma ^ 2 + 1 / d2_winner))
  let new_sigma_loser := Real.sqrt (1 / (1 / loser_sigma ^ 2 + 1 / d2_loser))
  let new_mu_winner := winner_mu +
    GLICKO_Q * new_sigma_winner ^ 2 * glicko_g loser_sigma * (s_winner - e_winner)
  let new_mu_loser := loser_mu +
    GLICKO_Q * new_sigma_loser ^ 2 * glicko_g winner_sigma * (s_loser - e_loser)
  ((new_mu_winner, max new_sigma_winner MIN_SIGMA),
   (new_mu_loser, max new_sigma_loser MIN_SIGMA))

/-- `get_conservative_score`: `mu - 2 * sigma`. -/
def get_conservative_score (mu sigma : ℝ) : ℝ := mu - 2 * sigma

/-- `check_intra_cluster_complete`: all clusters report
`internal_ranking_complete` (iterates `values()`). -/
def check_intra_cluster_complete (clusters : List Cluster) : Bool :=
  clusters.all (·.internal_ranking_complete)

/-- `initialize_ratings`: map every given id to the default rating. -/
def initialize_ratings (photo_ids : List String) : List (String × PhotoRating) :=
  photo_ids.map (fun id => (id, PhotoRating.default))

/-! ### The `compare` command (`commands.rs`, lines 586–659) -/

/-- The `ComparisonRecord` that `compare` stores for undo: both photos'
mu/sigma captured before the update. -/
def mkRecord (left_id right_id result : String) (now : ℝ)
    (left right : PhotoRating) : ComparisonRecord :=
  ⟨left_id, right_id, result, left.mu, left.sigma, right.mu, right.sigma, now⟩

/-- `Vec::push` followed by the `split_off` trim of `compare`: cap the
ledger at 100 entries, evicting from the front. -/
def pushTrim (history : List ComparisonRecord) (record : ComparisonRecord) :
    List ComparisonRecord :=
  let history1 := history ++ [record]
  if history1.length > 100 then history1.drop (history1.length - 100) else history1

/-- Post-validation body of `compare`: the state mutation performed once the
initialization check passed and both ratings were found (`left` / `right`
are the cloned pre-update ratings). -/
noncomputable def compareApply (s : RankingState) (left_id right_id result : String)
    (now : ℝ) (left right : PhotoRating) : RankingState :=
  let record : ComparisonRecord := mkRecord left_id right_id result now left right
  let ratings1 :=
    if result ≠ "skip" then
      let is_tie := result = "tie"
      let wl :=
        if result = "left" ∨ is_tie then (left.mu, left.sigma, right.mu, right.sigma)
        else (right.mu, right.sigma, left.mu, left.sigma)
      let upd := glicko_update wl.1 wl.2.1 wl.2.2.1 wl.2.2.2 (decide is_tie)
      let applied :=
        if result = "left" ∨ is_tie then
          updA (updA s.ratings left_id
              (fun r => { r with mu := upd.1.1, sigma := upd.1.2 }))
            right_id (fun r => { r with mu := upd.2.1, sigma := upd.2.2 })
        else
          updA (updA s.ratings right_id
              (fun r => { r with mu := upd.1.1, sigma := upd.1.2 }))
            left_id (fun r => { r with mu := upd.2.1, sigma := upd.2.2 })
      updA (updA applied left_id
          (fun r => { r with matches_played := r.matches_played + 1 }))
        right_id (fun r => { r with matches_played := r.matches_played + 1 })
    else s.ratings
  let history2 := pushTrim s.comparison_history record
  let phase1 :=
    if s.phase = "intra_cluster" ∧
        check_intra_cluster_complete s.clusters = true then "global"
    else s.phase
  { s with
    ratings := ratings1,
    comparison_history := history2,
    total_comparisons := s.total_comparisons + 1,
    phase := phase1 }

/-- The `compare` Tauri command.  `now` is the wall-clock timestamp the
source reads from `SystemTime::now()`; persistence (`persistent.save()`) is
external and dropped from the model, so the command returns the mutated
`RankingState`. -/
noncomputable def compare (s : RankingState) (left_id right_id result : String)
    (now : ℝ) : Except String RankingState :=
  if s.initialized = false then .error "Ranking not initialized"
  else
    match lookupA s.ratings left_id with
    | none => .error "Left photo not found"
    | some left =>
      match lookupA s.ratings right_id with
      | none => .error "Right photo not found"
      | some right => .ok (compareApply s left_id right_id result now left right)

/-! ### The `undo_ranking` command (`commands.rs`, lines 662–701) -/

/-- Restoration applied to the left photo's rating during undo: mu/sigma
back to the captured values, `matches_played` decremented (saturating) for
non-skip records. -/
def restoreLeft (record : ComparisonRecord) (r : PhotoRating) : PhotoRating :=
  { r with mu := record.left_mu_before, sigma := record.left_sigma_before,
           matches_played :=
             if record.result ≠ "skip" then r.matches_played - 1
             else r.matches_played }

/-- Restoration applied to the right photo's rating during undo. -/
def restoreRight (record : ComparisonRecord) (r : PhotoRating) : PhotoRating :=
  { r with mu := record.right_mu_before, sigma := record.right_sigma_before,
           matches_played :=
             if record.result ≠ "skip" then r.matches_played - 1
             else r.matches_played }

/-- State mutation of `undo_ranking` once a record was popped: photos no
longer present in `ratings` are silently skipped (`if let Some(…) =
ratings.get_mut(…)` — `updA` is the identity on absent keys). -/
def undoApply (s : RankingState) (record : ComparisonRecord) : RankingState :=
  { s with
    comparison_history := s.comparison_history.dropLast,
    ratings := updA (updA s.ratings record.left_id (restoreLeft record))
      record.right_id (restoreRight record),
    total_comparisons := s.total_comparisons - 1 }

/-- The `undo_ranking` Tauri command. -/
def undo_ranking (s : RankingState) : Except String (RankingState × UndoResult) :=
  match s.comparison_history.getLast? with
  | none => .ok (s, ⟨false, "Nothing to undo", none⟩)
  | some record =>
    .ok (undoApply s record,
         ⟨true, "Undone comparison: " ++ record.result, none⟩)

/-! ### Intra-cluster pair selection (`ranking.rs`, lines 89–150) -/

/-- Rust `Iterator::min_by` (ties keep the first minimal element). -/
noncomputable def minBy {α : Type} (f : α → ℝ) (l : List α) : Option α :=
  l.foldl (fun acc x =>
    match acc with
    | none => some x
    | some m => if f x < f m then some x else some m) none

/-- `ratings.get(pid).map(|r| r.sigma).unwrap_or(DEFAULT_SIGMA)`. -/
def sigmaD (ratings : List (String × PhotoRating)) (pid : String) : ℝ :=
  ((lookupA ratings pid).map (·.sigma)).getD DEFAULT_SIGMA

/-- `ratings.get(pid).map(|r| r.mu).unwrap_or(DEFAULT_MU)`. -/
def muD (ratings : List (String × PhotoRating)) (pid : String) : ℝ :=
  ((lookupA ratings pid).map (·.mu)).getD DEFAULT_MU

/-- `ratings.get(pid).map(|r| r.matches_played).unwrap_or(0)`. -/
def matchesD (ratings : List (String × PhotoRating)) (pid : String) : Nat :=
  ((lookupA ratings pid).map (·.matches_played)).getD 0

/-- Member ids still present in `ratings` (the filter at the top of the
cluster loop body). -/
def validIds (c : Cluster) (ratings : List (String × PhotoRating)) : List String :=
  c.photo_ids.filter (fun pid => (lookupA ratings pid).isSome)

/-- `avg_sigma` over the valid members. -/
noncomputable def avgSigma (c : Cluster) (ratings : List (String × PhotoRating)) : ℝ :=
  ((validIds c ratings).map (sigmaD ratings)).sum / (validIds c ratings).length

/-- `min_matches` over the valid members (`.min().unwrap_or(0)`). -/
def minMatches (c : Cluster) (ratings : List (String × PhotoRating)) : Nat :=
  (((validIds c ratings).map (matchesD ratings)).min?).getD 0

/-- `let required_matches = if n == 2 { 1 } else if n == 3 { 2 } else { 3 }`. -/
def requiredMatches (n : Nat) : Nat :=
  if n = 2 then 1 else if n = 3 then 2 else 3

/-- The conditions under which the cluster loop `continue`s without
producing a pair from this cluster. -/
def skipCluster (c : Cluster) (ratings : List (String × PhotoRating)) : Prop :=
  c.internal_ranking_complete = true ∨
    (validIds c ratings).length < 2 ∨
    avgSigma c ratings < 100 ∨
    minMatches c ratings ≥ requiredMatches (validIds c ratings).length

/-- `select_intra_cluster_pair`, iterating clusters in the (incidental)
`values()` order, here an explicit list.  `sort_by(|a, b|
b.1.partial_cmp(&a.1)…)` is the stable sort by sigma descending; taking
index `[0]` of a list the guard proves nonempty becomes a head match. -/
noncomputable def select_intra_cluster_pair (clusters : List Cluster)
    (ratings : List (String × PhotoRating)) : Option (String × String) :=
  match clusters with
  | [] => none
  | c :: rest =>
    if c.internal_ranking_complete then select_intra_cluster_pair rest ratings
    else
      let valid_ids := validIds c ratings
      if valid_ids.length < 2 then select_intra_cluster_pair rest ratings
      else
        if avgSigma c ratings < 100 ∨
            minMatches c ratings ≥ requiredMatches valid_ids.length then
          select_intra_cluster_pair rest ratings
        else
          let sorted_by_sigma :=
            (valid_ids.map (fun pid => (pid, sigmaD ratings pid))).mergeSort
              (fun a b => decide (b.2 ≤ a.2))
          match sorted_by_sigma with
          | [] => none
          | (primary, _) :: _ =>
            let primary_mu := muD ratings primary
            let candidates := valid_ids.filter (fun p => p ≠ primary)
            match minBy (fun a => |muD ratings a - primary_mu|) candidates with
            | some opp => some (primary, opp)
            | none => select_intra_cluster_pair rest ratings

/-! ### Perceptual-hash utilities (`hashing.rs`)

Strings are compared at character level; the source operates on bytes, which
coincides for the ASCII hex fingerprints this code produces and consumes. -/

/-- `HAMMING_THRESHOLD`. -/
def HAMMING_THRESHOLD : Nat := 10

/-- `u32::MAX`, the sentinel "infinite" distance. -/
def U32_MAX : Nat := 4294967295

/-- Value of one hex digit, as accepted by `u8::from_str_radix(_, 16)`. -/
def hexVal (c : Char) : Option Nat :=
  if '0' ≤ c ∧ c ≤ '9' then some (c.toNat - 48)
  else if 'a' ≤ c ∧ c ≤ 'f' then some (c.toNat - 87)
  else if 'A' ≤ c ∧ c ≤ 'F' then some (c.toNat - 55)
  else none

/-- `u8::from_str_radix` applied to one two-character chunk (the parser also
accepts a leading `+` sign in front of a single digit). -/
def hexPairVal (c₁ c₂ : Char) : Option Nat :=
  if c₁ = '+' then hexVal c₂
  else
    match hexVal c₁, hexVal c₂ with
    | some a, some b => some (16 * a + b)
    | _, _ => none

/-- `hex_to_bytes`: `None` for odd length or any unparsable chunk. -/
def hexToBytes : List Char → Option (List Nat)
  | [] => some []
  | [_] => none
  | c₁ :: c₂ :: rest =>
    match hexPairVal c₁ c₂, hexToBytes rest with
    | some b, some bs => some (b :: bs)
    | _, _ => none

/-- Binary popcount peeling `fuel` low bits (structural so that concrete
inputs evaluate inside the kernel). -/
def countOnesAux : Nat → Nat → Nat
  | 0, _ => 0
  | fuel + 1, n => n % 2 + countOnesAux fuel (n / 2)

/-- `u8::count_ones`: byte values fit in 8 bits. -/
def countOnes (n : Nat) : Nat := countOnesAux 8 n

/-- `hamming_distance` over two hex hash strings. -/
def hamming_distance (hash1 hash2 : String) : Nat :=
  if hash1.length ≠ hash2.length then U32_MAX
  else
    match hexToBytes hash1.data, hexToBytes hash2.data with
    | some bytes1, some bytes2 =>
      ((bytes1.zip bytes2).map (fun p => countOnes (p.1 ^^^ p.2))).sum
    | _, _ => U32_MAX

/-! ### Greedy clustering (`hashing.rs`, `cluster_photos`, lines 91–132) -/

/-- Decimal digit characters of `n`, most significant first; `fuel` bounds
the recursion depth (any `fuel > n` is exact — see `toDecAux_stable`). -/
def toDecAux : Nat → Nat → List Char
  | 0, _ => []
  | fuel + 1, n =>
    if n < 10 then [Nat.digitChar n]
    else toDecAux fuel (n / 10) ++ [Nat.digitChar (n % 10)]

/-- Decimal digit characters of `n`, most significant first. -/
def toDec (n : Nat) : List Char := toDecAux (n + 1) n

/-- `format!("{:04}", n)`: decimal digits zero-padded to width 4. -/
def pad4 (n : Nat) : List Char :=
  List.replicate (4 - (toDec n).length) '0' ++ toDec n

/-- `format!("cluster_{:04}", n)`. -/
def mkClusterId (n : Nat) : String :=
  "cluster_" ++ String.mk (pad4 n)

/-- Loop state of `cluster_photos`: the three maps and the counter. -/
structure CState where
  clusters : List (String × List String)
  photo_to_cluster : List (String × String)
  cluster_reps : List (String × String)
  cluster_count : Nat

/-- First representative (in creation order) within the Hamming threshold:
the inner `for (cluster_id, rep_hash) in &cluster_reps` loop with its
`break`. -/
def findRep (reps : List (String × String)) (hash : String) : Option String :=
  match reps with
  | [] => none
  | (cid, rep) :: rest =>
    if hamming_distance hash rep ≤ HAMMING_THRESHOLD then some cid
    else findRep rest hash

/-- One iteration of the `for (photo_id, hash) in photo_hashes` loop.
`clusters.get_mut(cluster_id).unwrap().push(…)` becomes an in-place update
(the representative list only ever names existing cluster keys). -/
def clusterStep (st : CState) (p : String × String) : CState :=
  let photo_id := p.1
  let hash := p.2
  if hash.length ≠ 64 then st
  else
    match findRep st.cluster_reps hash with
    | some cid =>
      { st with
        clusters := updA st.clusters cid (fun members => members ++ [photo_id]),
        photo_to_cluster := insertA st.photo_to_cluster photo_id cid }
    | none =>
      let cid := mkClusterId st.cluster_count
      { st with
        clusters := insertA st.clusters cid [photo_id],
        cluster_reps := st.cluster_reps ++ [(cid, hash)],
        photo_to_cluster := insertA st.photo_to_cluster photo_id cid,
        cluster_count := st.cluster_count + 1 }

/-- `cluster_photos`.  The Rust source iterates a `HashMap` whose order is
unspecified; the model therefore takes the iteration order as an explicit
list of `(photo_id, fingerprint)` pairs. -/
def cluster_photos (photo_hashes : List (String × String)) :
    List (String × List String) × List (String × String) :=
  let st := photo_hashes.foldl clusterStep ⟨[], [], [], 0⟩
  (st.clusters, st.photo_to_cluster)

/-! ### Basic lemmas about `compare` and `undo_ranking` -/

theorem compare_ok_inv {s s₁ : RankingState} {l r res : String} {now : ℝ}
    (h : compare s l r res now = .ok s₁) :
    s.initialized = true ∧
      ∃ left right, lookupA s.ratings l = some left ∧
        lookupA s.ratings r = some right ∧
        s₁ = compareApply s l r res now left right := by
  unfold compare at h
  by_cases hi : s.initialized = false
  · simp [hi] at h
  · rw [if_neg hi] at h
    cases hl : lookupA s.ratings l with
    | none => rw [hl] at h; exact absurd h (by simp)
    | some left =>
      rw [hl] at h
      cases hr : lookupA s.ratings r with
      | none => rw [hr] at h; exact absurd h (by simp)
      | some right =>
        rw [hr] at h
        refine ⟨by simpa using hi, left, right, rfl, rfl, ?_⟩
        simpa using h.symm

@[simp] theorem compareApply_total (s : RankingState) (l r res : String) (now : ℝ)
    (a b : PhotoRating) :
    (compareApply s l r res now a b).total_comparisons = s.total_comparisons + 1 := rfl

@[simp] theorem compareApply_history (s : RankingState) (l r res : String) (now : ℝ)
    (a b : PhotoRating) :
    (compareApply s l r res now a b).comparison_history =
      pushTrim s.comparison_history (mkRecord l r res now a b) := rfl

@[simp] theorem compareApply_clusters (s : RankingState) (l r res : String) (now : ℝ)
    (a b : PhotoRating) :
    (compareApply s l r res now a b).clusters = s.clusters := rfl

@[simp] theorem compareApply_phase (s : RankingState) (l r res : String) (now : ℝ)
    (a b : PhotoRating) :
    (compareApply s l r res now a b).phase =
      if s.phase = "intra_cluster" ∧ check_intra_cluster_complete s.clusters = true
      then "global" else s.phase := rfl

theorem pushTrim_length_le (history : List ComparisonRecord)
    (record : ComparisonRecord) : (pushTrim history record).length ≤ 100 := by
  unfold pushTrim
  by_cases h : (history ++ [record]).length > 100
  · simp only [h, if_true, List.length_drop]
    omega
  · simp only [h, if_false]
    omega

theorem pushTrim_getLast? (history : List ComparisonRecord)
    (record : ComparisonRecord) :
    (pushTrim history record).getLast? = some record := by
  unfold pushTrim
  by_cases h : (history ++ [record]).length > 100
  · simp only [h, if_true]
    rw [List.drop_append_eq_append_drop]
    have hk : (history ++ [record]).length - 100 - history.length = 0 := by
      simp only [List.length_append, List.length_singleton]
      omega
    rw [hk, List.drop_zero, List.getLast?_concat]
  · simp only [h, if_false, List.getLast?_concat]

theorem pushTrim_of_length_eq_100 (history : List ComparisonRecord)
    (record : ComparisonRecord) (h : history.length = 100) :
    pushTrim history record = history.drop 1 ++ [record] := by
  unfold pushTrim
  have hlen : (history ++ [record]).length = 101 := by simp [h]
  rw [if_pos (by omega), hlen]
  rw [List.drop_append_eq_append_drop]
  have : 101 - 100 - history.length = 0 := by omega
  rw [this, List.drop_zero]

theorem undo_ok_of_getLast {s : RankingState} {rec : ComparisonRecord}
    (h : s.comparison_history.getLast? = some rec) :
    undo_ranking s = .ok (undoApply s rec,
      ⟨true, "Undone comparison: " ++ rec.result, none⟩) := by
  unfold undo_ranking
  rw [h]

theorem undo_ok_of_empty {s : RankingState}
    (h : s.comparison_history = []) :
    undo_ranking s = .ok (s, ⟨false, "Nothing to undo", none⟩) := by
  unfold undo_ranking
  rw [h]
  rfl

theorem compareApply_ratings_left (s : RankingState) (A B : String) (now : ℝ)
    (a b : PhotoRating) :
    (compareApply s A B "left" now a b).ratings =
      updA (updA (updA (updA s.ratings A
          (fun r => { r with mu := (glicko_update a.mu a.sigma b.mu b.sigma false).1.1,
                             sigma := (glicko_update a.mu a.sigma b.mu b.sigma false).1.2 }))
        B (fun r => { r with mu := (glicko_update a.mu a.sigma b.mu b.sigma false).2.1,
                             sigma := (glicko_update a.mu a.sigma b.mu b.sigma false).2.2 }))
        A (fun r => { r with matches_played := r.matches_played + 1 }))
        B (fun r => { r with matches_played := r.matches_played + 1 }) := rfl

/-! ### Witness fixtures: concrete states used to instantiate the
hypotheses of the proved theorems. -/

/-- Fallback extractor for `Except` values known to be `ok`. -/
def okOrD {ε α : Type} (d : α) (e : Except ε α) : α :=
  match e with
  | .ok a => a
  | .error _ => d

/-- An arbitrary fallback state. -/
def wDummy : RankingState :=
  ⟨false, [], [], [], [], 0, "", 0, 0⟩

/-- A small initialized two-photo ranking state. -/
def wState : RankingState :=
  { initialized := true
    ratings := [("a", PhotoRating.default), ("b", PhotoRating.default)]
    clusters := []
    photo_to_cluster := []
    comparison_history := []
    total_comparisons := 0
    phase := "global"
    photo_count := 2
    cluster_count := 0 }

/-- Claim C3: the comparison ledger is bounded at 100 entries with pure FIFO
eviction — after any successful `compare` the history holds at most 100
records, and a compare applied to a 100-entry history drops exactly the
oldest record and appends the new one. -/
theorem comparison_ledger_bounded_fifo (s s₁ : RankingState)
    (l r res : String) (now : ℝ)
    (h : compare s l r res now = .ok s₁) :
    s₁.comparison_history.length ≤ 100 ∧
      (s.comparison_history.length = 100 →
        ∃ rec : ComparisonRecord, rec.left_id = l ∧ rec.right_id = r ∧
          rec.result = res ∧
          s₁.comparison_history = s.comparison_history.drop 1 ++ [rec]) := by
  obtain ⟨-, left, right, -, -, hs₁⟩ := compare_ok_inv h
  subst hs₁
  rw [compareApply_history]
  refine ⟨pushTrim_length_le _ _, fun h100 => ?_⟩
  exact ⟨mkRecord l r res now left right, rfl, rfl, rfl,
    pushTrim_of_length_eq_100 _ _ h100⟩

/-- Witness for claim C3 at a concrete two-photo state. -/
theorem comparison_ledger_bounded_fifo_witness :
    (okOrD wDummy (compare wState "a" "b" "left" 0)).comparison_history.length ≤ 100 ∧
      (wState.comparison_history.length = 100 →
        ∃ rec : ComparisonRecord, rec.left_id = "a" ∧ rec.right_id = "b" ∧
          rec.result = "left" ∧
          (okOrD wDummy (compare wState "a" "b" "left" 0)).comparison_history =
            wState.comparison_history.drop 1 ++ [rec]) :=
  comparison_ledger_bounded_fifo wState _ "a" "b" "left" 0 rfl

/-- Claim C1: undo is an exact inverse of a decisive comparison — after
`compare(A, B, "left")` followed by `undo_ranking`, the full ratings
entries of A and B (mu, sigma, matches_played) and `total_comparisons`
equal their pre-compare values. -/
theorem compare_undo_exact_inverse (s s₁ s₂ : RankingState) (res : UndoResult)
    (A B : String) (now : ℝ)
    (h₁ : compare s A B "left" now = .ok s₁)
    (h₂ : undo_ranking s₁ = .ok (s₂, res)) :
    lookupA s₂.ratings A = lookupA s.ratings A ∧
      lookupA s₂.ratings B = lookupA s.ratings B ∧
      s₂.total_comparisons = s.total_comparisons := by
  obtain ⟨hi, a, b, ha, hb, hs₁⟩ := compare_ok_inv h₁
  have hlast : s₁.comparison_history.getLast? = some (mkRecord A B "left" now a b) := by
    rw [hs₁, compareApply_history]; exact pushTrim_getLast? _ _
  rw [undo_ok_of_getLast hlast] at h₂
  have hs₂ : s₂ = undoApply s₁ (mkRecord A B "left" now a b) := by
    have := h₂
    simp only [Except.ok.injEq, Prod.mk.injEq] at this
    exact this.1.symm
  subst hs₂
  refine ⟨?_, ?_, ?_⟩
  · by_cases hAB : A = B
    · subst hAB
      have hab : a = b := by rw [ha] at hb; exact Option.some.injEq _ _ ▸ (by simpa using hb)
      subst hab
      simp only [undoApply, hs₁, compareApply_ratings_left]
      simp [lookupA_updA, ha, restoreLeft, restoreRight, mkRecord]
    · simp only [undoApply, hs₁, compareApply_ratings_left]
      simp [lookupA_updA, hAB, Ne.symm hAB, ha, restoreLeft, restoreRight, mkRecord]
  · by_cases hAB : A = B
    · subst hAB
      have hab : a = b := by rw [ha] at hb; exact Option.some.injEq _ _ ▸ (by simpa using hb)
      subst hab
      simp only [undoApply, hs₁, compareApply_ratings_left]
      simp [lookupA_updA, ha, restoreLeft, restoreRight, mkRecord]
    · simp only [undoApply, hs₁, compareApply_ratings_left]
      simp [lookupA_updA, hAB, Ne.symm hAB, hb, restoreLeft, restoreRight, mkRecord]
  · simp [undoApply, hs₁]

/-- Witness for claim C1 at a concrete two-photo state. -/
theorem compare_undo_exact_inverse_witness :
    lookupA (okOrD (wDummy, ⟨false, "", none⟩)
        (undo_ranking (okOrD wDummy (compare wState "a" "b" "left" 0)))).1.ratings "a" =
      lookupA wState.ratings "a" ∧
      lookupA (okOrD (wDummy, ⟨false, "", none⟩)
          (undo_ranking (okOrD wDummy (compare wState "a" "b" "left" 0)))).1.ratings "b" =
        lookupA wState.ratings "b" ∧
      (okOrD (wDummy, ⟨false, "", none⟩)
          (undo_ranking (okOrD wDummy (compare wState "a" "b" "left" 0)))).1.total_comparisons =
        wState.total_comparisons :=
  compare_undo_exact_inverse wState _ _ _ "a" "b" 0 rfl rfl


def c6State : RankingState :=
  { initialized := true
    ratings := [("a", ⟨1480, 320, 3⟩), ("b", ⟨1520, 310, 4⟩)]
    clusters := []
    photo_to_cluster := []
    comparison_history := [⟨"a", "b", "skip", 1480, 320, 1520, 310, 0⟩]
    total_comparisons := 5
    phase := "global"
    photo_count := 2
    cluster_count := 0 }

/-- Counterexample to claim C6: at a state whose most recent ledger record
is a Skip and whose `total_comparisons` is 5, `undo_ranking` reports 4 —
the decrement of `total_comparisons` is NOT guarded by the not-Skip test
(only the `matches_played` decrements are). -/
theorem undo_skip_total_cex :
    (c6State.comparison_history.getLast?.map (·.result)) = some "skip" ∧
      c6State.total_comparisons = 5 ∧
      (okOrD (wDummy, ⟨false, "", none⟩) (undo_ranking c6State)).1.total_comparisons = 4 :=
  ⟨rfl, rfl, rfl⟩

/-- Claim C6 as amended: undoing a Skip record restores both photos' mu and
sigma to the captured before-values and leaves both `matches_played`
unchanged, but still decrements `total_comparisons` (floored at 0). -/
theorem undo_skip_restores (s s' : RankingState) (res : UndoResult)
    (rec : ComparisonRecord)
    (hlast : s.comparison_history.getLast? = some rec)
    (hskip : rec.result = "skip")
    (hne : rec.left_id ≠ rec.right_id)
    (h : undo_ranking s = .ok (s', res)) :
    lookupA s'.ratings rec.left_id =
      (lookupA s.ratings rec.left_id).map
        (fun r => ⟨rec.left_mu_before, rec.left_sigma_before, r.matches_played⟩) ∧
      lookupA s'.ratings rec.right_id =
        (lookupA s.ratings rec.right_id).map
          (fun r => ⟨rec.right_mu_before, rec.right_sigma_before, r.matches_played⟩) ∧
      s'.total_comparisons = s.total_comparisons - 1 := by
  rw [undo_ok_of_getLast hlast] at h
  have hs : s' = undoApply s rec := by
    simp only [Except.ok.injEq, Prod.mk.injEq] at h
    exact h.1.symm
  subst hs
  refine ⟨?_, ?_, rfl⟩
  · rw [show (undoApply s rec).ratings =
        updA (updA s.ratings rec.left_id (restoreLeft rec)) rec.right_id
          (restoreRight rec) from rfl]
    rw [lookupA_updA_ne _ _ _ _ (Ne.symm hne), lookupA_updA_self]
    cases lookupA s.ratings rec.left_id <;> simp [restoreLeft, hskip]
  · rw [show (undoApply s rec).ratings =
        updA (updA s.ratings rec.left_id (restoreLeft rec)) rec.right_id
          (restoreRight rec) from rfl]
    rw [lookupA_updA_self, lookupA_updA_ne _ _ _ _ hne]
    cases lookupA s.ratings rec.right_id <;> simp [restoreRight, hskip]

/-- Witness for amended claim C6 at a concrete state with a skip record. -/
theorem undo_skip_restores_witness :
    lookupA (okOrD (wDummy, ⟨false, "", none⟩) (undo_ranking c6State)).1.ratings "a" =
        (lookupA c6State.ratings "a").map (fun r => ⟨1480, 320, r.matches_played⟩) ∧
      lookupA (okOrD (wDummy, ⟨false, "", none⟩) (undo_ranking c6State)).1.ratings "b" =
        (lookupA c6State.ratings "b").map (fun r => ⟨1520, 310, r.matches_played⟩) ∧
      (okOrD (wDummy, ⟨false, "", none⟩) (undo_ranking c6State)).1.total_comparisons =
        c6State.total_comparisons - 1 :=
  undo_skip_restores c6State _ _ _ rfl rfl (by decide) rfl

/-- Claim C10: undo with orphaned ids — for every non-empty ledger,
`undo_ranking` reports success and decrements `total_comparisons` (floored
at 0) even when the popped record's photo ids are no longer in `ratings`;
the restore of a missing photo is silently skipped (it stays absent) and
entries for other photos are untouched. -/
theorem undo_orphaned_ids (s : RankingState) (rec : ComparisonRecord)
    (hlast : s.comparison_history.getLast? = some rec) :
    ∃ s' res, undo_ranking s = .ok (s', res) ∧ res.success = true ∧
      s'.total_comparisons = s.total_comparisons - 1 ∧
      (lookupA s.ratings rec.left_id = none →
        lookupA s'.ratings rec.left_id = none) ∧
      (lookupA s.ratings rec.right_id = none →
        lookupA s'.ratings rec.right_id = none) ∧
      (∀ q, q ≠ rec.left_id → q ≠ rec.right_id →
        lookupA s'.ratings q = lookupA s.ratings q) := by
  refine ⟨undoApply s rec, _, undo_ok_of_getLast hlast, rfl, rfl, ?_, ?_, ?_⟩
  · intro hnone
    simp only [undoApply, lookupA_updA]
    split <;> simp [hnone]
  · intro hnone
    simp only [undoApply, lookupA_updA]
    split <;> split <;> simp [hnone]
  · intro q hql hqr
    simp [undoApply, lookupA_updA, Ne.symm hql, Ne.symm hqr]

def c10State : RankingState :=
  { initialized := true
    ratings := [("b", ⟨1520, 310, 4⟩)]
    clusters := []
    photo_to_cluster := []
    comparison_history := [⟨"gone", "b", "left", 1480, 320, 1520, 310, 0⟩]
    total_comparisons := 7
    phase := "global"
    photo_count := 1
    cluster_count := 0 }

/-- Witness for claim C10 at a state whose popped record names a photo id
that is absent from `ratings`. -/
theorem undo_orphaned_ids_witness :
    ∃ s' res, undo_ranking c10State = .ok (s', res) ∧ res.success = true ∧
      s'.total_comparisons = c10State.total_comparisons - 1 ∧
      (lookupA c10State.ratings "gone" = none →
        lookupA s'.ratings "gone" = none) ∧
      (lookupA c10State.ratings "b" = none →
        lookupA s'.ratings "b" = none) ∧
      (∀ q, q ≠ "gone" → q ≠ "b" →
        lookupA s'.ratings q = lookupA c10State.ratings q) :=
  undo_orphaned_ids c10State _ rfl


/-- Counterexample to claim C7: `compare` with the malformed result string
"flip" does not fail with an InvalidInput error — it returns `Ok` and
mutates the state (total_comparisons incremented, photo "b" treated as
winner and its match count incremented). -/
theorem compare_invalid_result_cex :
    (compare wState "a" "b" "flip" 0).isOk = true ∧
      (okOrD wDummy (compare wState "a" "b" "flip" 0)).total_comparisons = 1 ∧
      wState.total_comparisons = 0 ∧
      (lookupA (okOrD wDummy (compare wState "a" "b" "flip" 0)).ratings "b").map
        (·.matches_played) = some 1 :=
  ⟨rfl, rfl, rfl, rfl⟩

/-- Claim C7 as amended: `compare` never validates the result string; any
value other than "left", "tie", "skip" takes the non-skip, non-left branch
and is processed exactly like "right" — same ratings, total and phase —
differing only in the result string stored in the ledger record. -/
theorem compare_unknown_result_as_right (s s₁ : RankingState)
    (l r res : String) (now : ℝ)
    (hres₁ : res ≠ "left") (hres₂ : res ≠ "tie") (hres₃ : res ≠ "skip")
    (h : compare s l r res now = .ok s₁) :
    ∃ s₂, compare s l r "right" now = .ok s₂ ∧
      s₂.ratings = s₁.ratings ∧
      s₂.total_comparisons = s₁.total_comparisons ∧
      s₂.phase = s₁.phase := by
  obtain ⟨hi, a, b, ha, hb, hs₁⟩ := compare_ok_inv h
  refine ⟨compareApply s l r "right" now a b, ?_, ?_, by rw [hs₁]; rfl, by rw [hs₁]; rfl⟩
  · unfold compare
    rw [if_neg (by simp [hi]), ha, hb]
  · rw [hs₁]
    unfold compareApply
    simp only [hres₁, hres₂, hres₃]
    simp [hres₁, hres₂, hres₃]

inductive RankingOp where
  | compareOp (left_id right_id result : String) (now : ℝ)
  | undoOp

/-- One successful mutation step of the ranking state machine. -/
inductive RStep : RankingOp → RankingState → RankingState → Prop where
  | comp {s s' : RankingState} {l r res : String} {now : ℝ}
      (h : compare s l r res now = .ok s') : RStep (.compareOp l r res now) s s'
  | und {s s' : RankingState} {u : UndoResult}
      (h : undo_ranking s = .ok (s', u)) : RStep .undoOp s s'

/-- Reachability by any sequence of successful compare / undo steps. -/
def ReachableFrom (s₀ s : RankingState) : Prop :=
  Relation.ReflTransGen (fun a b => ∃ op, RStep op a b) s₀ s

/-- Claim C2: the phase only ever transitions from "intra_cluster" to
"global" and never backward. Along any successful compare/undo step:
a "global" phase is preserved; a compare from "intra_cluster" lands in
"global" exactly when every cluster's `internal_ranking_complete` holds
(which `compare` checks after recording the comparison); undo never
changes the phase. Consequently "global" persists along every reachable
sequence of operations. -/
theorem phase_monotone :
    (∀ op s s', RStep op s s' →
      (s.phase = "global" → s'.phase = "global") ∧
      (∀ l r res now, op = .compareOp l r res now → s.phase = "intra_cluster" →
        (s'.phase = "global" ↔ check_intra_cluster_complete s.clusters = true)) ∧
      (op = .undoOp → s'.phase = s.phase)) ∧
    (∀ s₀ s, ReachableFrom s₀ s → s₀.phase = "global" → s.phase = "global") := by
  have step : ∀ op s s', RStep op s s' →
      (s.phase = "global" → s'.phase = "global") ∧
      (∀ l r res now, op = .compareOp l r res now → s.phase = "intra_cluster" →
        (s'.phase = "global" ↔ check_intra_cluster_complete s.clusters = true)) ∧
      (op = .undoOp → s'.phase = s.phase) := by
    intro op s s' hstep
    cases hstep with
    | comp h =>
      obtain ⟨hi, a, b, ha, hb, hs₁⟩ := compare_ok_inv h
      subst hs₁
      rw [compareApply_phase]
      refine ⟨?_, ?_, by intro hh; cases hh⟩
      · intro hg
        rw [hg]
        rw [if_neg (by simp)]
      · intro l' r' res' now' heq hic
        rw [hic]
        by_cases hc : check_intra_cluster_complete s.clusters = true
        · simp [hc]
        · rw [if_neg (by simp [hc])]
          simp [hc]
    | und h =>
      have hphase : s'.phase = s.phase := by
        unfold undo_ranking at h
        cases hl : s.comparison_history.getLast? with
        | none =>
          rw [hl] at h
          simp only [Except.ok.injEq, Prod.mk.injEq] at h
          rw [← h.1]
        | some rec =>
          rw [hl] at h
          simp only [Except.ok.injEq, Prod.mk.injEq] at h
          rw [← h.1]
          rfl
      refine ⟨fun hg => hphase.trans hg, ?_, fun _ => hphase⟩
      intro _ _ _ _ hh
      cases hh
  refine ⟨step, ?_⟩
  intro s₀ s hreach
  induction hreach with
  | refl => exact fun hg => hg
  | tail hab hbc ih =>
    intro hg
    obtain ⟨op, hstep⟩ := hbc
    exact (step op _ _ hstep).1 (ih hg)

def c2State : RankingState :=
  { initialized := true
    ratings := [("a", PhotoRating.default), ("b", PhotoRating.default)]
    clusters := [⟨"cluster_0000", ["a", "b"], none, true⟩]
    photo_to_cluster := [("a", "cluster_0000"), ("b", "cluster_0000")]
    comparison_history := []
    total_comparisons := 0
    phase := "intra_cluster"
    photo_count := 2
    cluster_count := 1 }

/-- Witness for claim C2: a concrete compare step out of "intra_cluster"
with all clusters complete, and reflexive reachability at a "global"
state. -/
theorem phase_monotone_witness :
    ((okOrD wDummy (compare c2State "a" "b" "left" 0)).phase = "global" ↔
      check_intra_cluster_complete c2State.clusters = true) ∧
      wState.phase = "global" :=
  ⟨(phase_monotone.1 (.compareOp "a" "b" "left" 0) c2State
      (okOrD wDummy (compare c2State "a" "b" "left" 0))
      (RStep.comp rfl)).2.1 "a" "b" "left" 0 rfl rfl,
    phase_monotone.2 wState wState Relation.ReflTransGen.refl rfl⟩


/-- Witness for amended claim C7 at a concrete state. -/
theorem compare_unknown_result_as_right_witness :
    ∃ s₂, compare wState "a" "b" "right" 0 = .ok s₂ ∧
      s₂.ratings = (okOrD wDummy (compare wState "a" "b" "flip" 0)).ratings ∧
      s₂.total_comparisons =
        (okOrD wDummy (compare wState "a" "b" "flip" 0)).total_comparisons ∧
      s₂.phase = (okOrD wDummy (compare wState "a" "b" "flip" 0)).phase :=
  compare_unknown_result_as_right wState _ "a" "b" "flip" 0
    (by decide) (by decide) (by decide) rfl

theorem glicko_g_pos (sigma : ℝ) : 0 < glicko_g sigma := by
  unfold glicko_g GLICKO_Q
  positivity

theorem glicko_expected_pos (a b sigma : ℝ) : 0 < glicko_expected_score a b sigma := by
  unfold glicko_expected_score
  positivity

theorem glicko_expected_lt_one (a b sigma : ℝ) : glicko_expected_score a b sigma < 1 := by
  unfold glicko_expected_score
  rw [div_lt_one (by positivity)]
  have h : (0:ℝ) < (10:ℝ) ^ (-(glicko_g sigma) * (a - b) / 400) := by positivity
  linarith

theorem glicko_d_squared_pos (sigma e : ℝ) (h0 : 0 < e) (h1 : e < 1) :
    0 < glicko_d_squared sigma e := by
  unfold glicko_d_squared
  have hnn : 0 ≤ GLICKO_Q ^ 2 * glicko_g sigma ^ 2 * e * (1 - e) :=
    mul_nonneg (mul_nonneg (mul_nonneg (sq_nonneg _) (sq_nonneg _)) h0.le)
      (by linarith)
  have hpos : (0:ℝ) < GLICKO_Q ^ 2 * glicko_g sigma ^ 2 * e * (1 - e) + 1e-10 := by
    have : (0:ℝ) < 1e-10 := by norm_num
    linarith
  positivity

theorem glicko_new_sigma_le (sigma d2 : ℝ) (hs : 0 < sigma) (hd : 0 < d2) :
    Real.sqrt (1 / (1 / sigma ^ 2 + 1 / d2)) ≤ sigma := by
  have h1 : (0:ℝ) < 1 / sigma ^ 2 := by positivity
  have h2 : 1 / sigma ^ 2 ≤ 1 / sigma ^ 2 + 1 / d2 :=
    le_add_of_nonneg_right (by positivity)
  have h3 : 1 / (1 / sigma ^ 2 + 1 / d2) ≤ 1 / (1 / sigma ^ 2) :=
    one_div_le_one_div_of_le h1 h2
  rw [one_div_one_div] at h3
  calc Real.sqrt (1 / (1 / sigma ^ 2 + 1 / d2)) ≤ Real.sqrt (sigma ^ 2) :=
        Real.sqrt_le_sqrt h3
    _ = sigma := Real.sqrt_sq hs.le

/-- Claim C4: Glicko update postconditions over the real-number model of
the f64 arithmetic — `glicko_expected_score mu mu sigma = 0.5` for every
mu and sigma; and for a decisive (non-tie) update whose input sigmas are
≥ SIGMA_FLOOR (= MIN_SIGMA = 50), the winner's mu does not decrease, the
loser's mu does not increase, and both new sigmas are ≤ the old sigmas
and ≥ the floor. -/
theorem glicko_update_spec (mu sigma wmu wsig lmu lsig : ℝ)
    (hw : MIN_SIGMA ≤ wsig) (hl : MIN_SIGMA ≤ lsig) :
    glicko_expected_score mu mu sigma = 1 / 2 ∧
      wmu ≤ (glicko_update wmu wsig lmu lsig false).1.1 ∧
      (glicko_update wmu wsig lmu lsig false).2.1 ≤ lmu ∧
      (glicko_update wmu wsig lmu lsig false).1.2 ≤ wsig ∧
      (glicko_update wmu wsig lmu lsig false).2.2 ≤ lsig ∧
      MIN_SIGMA ≤ (glicko_update wmu wsig lmu lsig false).1.2 ∧
      MIN_SIGMA ≤ (glicko_update wmu wsig lmu lsig false).2.2 := by
  have hw0 : (0:ℝ) < wsig := lt_of_lt_of_le (by norm_num [MIN_SIGMA]) hw
  have hl0 : (0:ℝ) < lsig := lt_of_lt_of_le (by norm_num [MIN_SIGMA]) hl
  have heW0 := glicko_expected_pos wmu lmu lsig
  have heW1 := glicko_expected_lt_one wmu lmu lsig
  have heL0 := glicko_expected_pos lmu wmu wsig
  have heL1 := glicko_expected_lt_one lmu wmu wsig
  have hdW := glicko_d_squared_pos lsig _ heW0 heW1
  have hdL := glicko_d_squared_pos wsig _ heL0 heL1
  have hQ : (0:ℝ) ≤ GLICKO_Q := by norm_num [GLICKO_Q]
  refine ⟨?_, ?_, ?_, ?_, ?_, ?_, ?_⟩
  · unfold glicko_expected_score
    rw [sub_self, mul_zero, zero_div, Real.rpow_zero]
    norm_num
  · unfold glicko_update
    simp only [Bool.false_eq_true, if_false]
    apply le_add_of_nonneg_right
    apply mul_nonneg (mul_nonneg (mul_nonneg hQ (sq_nonneg _)) (glicko_g_pos lsig).le)
    linarith
  · unfold glicko_update
    simp only [Bool.false_eq_true, if_false]
    apply add_le_of_nonpos_right
    apply mul_nonpos_of_nonneg_of_nonpos
      (mul_nonneg (mul_nonneg hQ (sq_nonneg _)) (glicko_g_pos wsig).le)
    linarith
  · unfold glicko_update
    simp only [Bool.false_eq_true, if_false]
    exact max_le (glicko_new_sigma_le _ _ hw0 hdW) hw
  · unfold glicko_update
    simp only [Bool.false_eq_true, if_false]
    exact max_le (glicko_new_sigma_le _ _ hl0 hdL) hl
  · unfold glicko_update
    simp only [Bool.false_eq_true, if_false]
    exact le_max_right _ _
  · unfold glicko_update
    simp only [Bool.false_eq_true, if_false]
    exact le_max_right _ _

/-- Witness for claim C4 at the default rating values. -/
theorem glicko_update_spec_witness :
    glicko_expected_score 1500 1500 350 = 1 / 2 ∧
      (1500:ℝ) ≤ (glicko_update 1500 350 1500 350 false).1.1 ∧
      (glicko_update 1500 350 1500 350 false).2.1 ≤ 1500 ∧
      (glicko_update 1500 350 1500 350 false).1.2 ≤ 350 ∧
      (glicko_update 1500 350 1500 350 false).2.2 ≤ 350 ∧
      MIN_SIGMA ≤ (glicko_update 1500 350 1500 350 false).1.2 ∧
      MIN_SIGMA ≤ (glicko_update 1500 350 1500 350 false).2.2 :=
  glicko_update_spec 1500 350 1500 350 1500 350
    (by norm_num [MIN_SIGMA]) (by norm_num [MIN_SIGMA])



theorem minBy_go {α : Type} (f : α → ℝ) (t : List α) : ∀ (acc : α),
    ∃ m, t.foldl (fun acc x =>
        match acc with
        | none => some x
        | some m => if f x < f m then some x else some m) (some acc) = some m ∧
      (m = acc ∨ m ∈ t) ∧ f m ≤ f acc ∧ ∀ x ∈ t, f m ≤ f x := by
  induction t with
  | nil => exact fun acc => ⟨acc, rfl, Or.inl rfl, le_refl _, by simp⟩
  | cons y t ih =>
    intro acc
    by_cases h : f y < f acc
    · obtain ⟨m, hm, hmem, hle, hall⟩ := ih y
      refine ⟨m, ?_, ?_, hle.trans h.le, ?_⟩
      · simpa [h] using hm
      · rcases hmem with hmem | hmem
        · exact Or.inr (by simp [hmem])
        · exact Or.inr (by simp [hmem])
      · intro x hx
        rcases List.mem_cons.mp hx with hx | hx
        · exact hx ▸ hle
        · exact hall x hx
    · obtain ⟨m, hm, hmem, hle, hall⟩ := ih acc
      refine ⟨m, ?_, ?_, hle, ?_⟩
      · simpa [h] using hm
      · rcases hmem with hmem | hmem
        · exact Or.inl hmem
        · exact Or.inr (by simp [hmem])
      · intro x hx
        rcases List.mem_cons.mp hx with hx | hx
        · exact hx ▸ (hle.trans (not_lt.mp h))
        · exact hall x hx

theorem minBy_spec {α : Type} (f : α → ℝ) (l : List α) (hne : l ≠ []) :
    ∃ m, minBy f l = some m ∧ m ∈ l ∧ ∀ x ∈ l, f m ≤ f x := by
  cases l with
  | nil => exact absurd rfl hne
  | cons x t =>
    obtain ⟨m, hm, hmem, hle, hall⟩ := minBy_go f t x
    refine ⟨m, ?_, ?_, ?_⟩
    · unfold minBy
      simpa using hm
    · rcases hmem with hmem | hmem
      · simp [hmem]
      · simp [hmem]
    · intro q hq
      rcases List.mem_cons.mp hq with hq | hq
      · exact hq ▸ hle
      · exact hall q hq

/-- Claim C5: intra-cluster selection. Iterating clusters in their stored
order: an empty list yields no pair; a cluster is skipped (selection moves
to the next cluster) exactly when it is complete, has fewer than 2 members
still in `ratings`, `avg_sigma < 100`, or `min_matches ≥ required_matches`
with 2→1, 3→2, ≥4→3; otherwise (for duplicate-free membership) the
returned pair is the valid member of maximal sigma together with a
remaining valid member whose mu is closest to the primary's. -/
theorem select_intra_cluster_pair_spec (ratings : List (String × PhotoRating)) :
    select_intra_cluster_pair [] ratings = none ∧
      (∀ c rest, skipCluster c ratings →
        select_intra_cluster_pair (c :: rest) ratings =
          select_intra_cluster_pair rest ratings) ∧
      (∀ c rest, ¬ skipCluster c ratings → (validIds c ratings).Nodup →
        ∃ p o, select_intra_cluster_pair (c :: rest) ratings = some (p, o) ∧
          p ∈ validIds c ratings ∧
          (∀ q ∈ validIds c ratings, sigmaD ratings q ≤ sigmaD ratings p) ∧
          o ∈ validIds c ratings ∧ o ≠ p ∧
          (∀ q ∈ validIds c ratings, q ≠ p →
            |muD ratings o - muD ratings p| ≤ |muD ratings q - muD ratings p|)) := by
  refine ⟨rfl, ?_, ?_⟩
  · intro c rest hskip
    unfold skipCluster at hskip
    conv_lhs => unfold select_intra_cluster_pair
    by_cases h1 : c.internal_ranking_complete
    · rw [if_pos h1]
    · rw [if_neg h1]
      by_cases h2 : (validIds c ratings).length < 2
      · rw [if_pos h2]
      · rw [if_neg h2]
        have h3 : avgSigma c ratings < 100 ∨
            minMatches c ratings ≥ requiredMatches (validIds c ratings).length := by
          rcases hskip with h | h | h | h
          · exact absurd h (by simpa using h1)
          · exact absurd h h2
          · exact Or.inl h
          · exact Or.inr h
        rw [if_pos h3]
  · intro c rest hskip hnodup
    unfold skipCluster at hskip
    push_neg at hskip
    obtain ⟨h1, h2, h3, h4⟩ := hskip
    have h1' : ¬ c.internal_ranking_complete := by simpa using h1
    have h2' : ¬ (validIds c ratings).length < 2 := by omega
    have h34 : ¬ (avgSigma c ratings < 100 ∨
        minMatches c ratings ≥ requiredMatches (validIds c ratings).length) := by
      push_neg
      exact ⟨h3, h4⟩
    have hsne : ((validIds c ratings).map
        (fun pid => (pid, sigmaD ratings pid))).mergeSort
          (fun a b => decide (b.2 ≤ a.2)) ≠ [] := by
      intro hnil
      have := congrArg List.length hnil
      rw [List.length_mergeSort, List.length_map] at this
      simp only [List.length_nil] at this
      omega
    obtain ⟨hd, tail, hcons⟩ := List.exists_cons_of_ne_nil hsne
    obtain ⟨p, psig⟩ := hd
    have hhd_pairs : (p, psig) ∈
        (validIds c ratings).map (fun pid => (pid, sigmaD ratings pid)) :=
      (List.mem_mergeSort).mp (hcons ▸ List.mem_cons_self _ _)
    have hp_valid : p ∈ validIds c ratings ∧ psig = sigmaD ratings p := by
      obtain ⟨pid, hpid, heq⟩ := List.mem_map.mp hhd_pairs
      injection heq with hh1 hh2
      subst hh1
      exact ⟨hpid, hh2.symm⟩
    have hsorted_pw : (((validIds c ratings).map
        (fun pid => (pid, sigmaD ratings pid))).mergeSort
          (fun a b => decide (b.2 ≤ a.2))).Pairwise
            (fun a b => (decide (b.2 ≤ a.2)) = true) := by
      apply List.sorted_mergeSort
      · intro a b c hab hbc
        simp only [decide_eq_true_eq] at hab hbc ⊢
        exact hbc.trans hab
      · intro a b
        simp only [Bool.or_eq_true, decide_eq_true_eq]
        exact le_total b.2 a.2
    have hmax : ∀ q ∈ validIds c ratings, sigmaD ratings q ≤ sigmaD ratings p := by
      intro q hq
      have hq_sorted : (q, sigmaD ratings q) ∈
          ((validIds c ratings).map
            (fun pid => (pid, sigmaD ratings pid))).mergeSort
              (fun a b => decide (b.2 ≤ a.2)) :=
        (List.mem_mergeSort).mpr (List.mem_map_of_mem _ hq)
      rw [hcons] at hq_sorted
      rcases List.mem_cons.mp hq_sorted with heq | htl
      · have hq2 : sigmaD ratings q = psig := congrArg Prod.snd heq
        rw [hq2, hp_valid.2]
      · rw [hcons] at hsorted_pw
        have := (List.pairwise_cons.mp hsorted_pw).1 _ htl
        simp only [decide_eq_true_eq] at this
        calc sigmaD ratings q ≤ psig := this
          _ = sigmaD ratings p := hp_valid.2
    have hcand_ne : (validIds c ratings).filter (fun q => q ≠ p) ≠ [] := by
      intro hnil
      have hall : ∀ q ∈ validIds c ratings, q = p := by
        intro q hq
        by_contra hne
        have hmemf : q ∈ (validIds c ratings).filter (fun q => q ≠ p) :=
          List.mem_filter.mpr ⟨hq, by simpa using hne⟩
        rw [hnil] at hmemf
        simp at hmemf
      match hv : validIds c ratings, hnodup, h2' with
      | [], _, hh => exact hh (by simp)
      | [a], _, hh => exact hh (by simp)
      | a :: b :: u, hnd, _ =>
        have hma : a ∈ validIds c ratings := by
          rw [hv]; exact List.mem_cons_self _ _
        have hmb : b ∈ validIds c ratings := by
          rw [hv]; exact List.mem_cons_of_mem _ (List.mem_cons_self _ _)
        have ha : a = p := hall a hma
        have hb : b = p := hall b hmb
        have := (List.nodup_cons.mp hnd).1
        exact this (by rw [ha, ← hb]; exact List.mem_cons_self _ _)
    obtain ⟨o, ho_eq, ho_mem, ho_min⟩ :=
      minBy_spec (fun a => |muD ratings a - muD ratings p|) _ hcand_ne
    have ho_valid : o ∈ validIds c ratings := (List.mem_filter.mp ho_mem).1
    have ho_ne : o ≠ p := by simpa using (List.mem_filter.mp ho_mem).2
    refine ⟨p, o, ?_, hp_valid.1, hmax, ho_valid, ho_ne, ?_⟩
    · conv_lhs => unfold select_intra_cluster_pair
      rw [if_neg h1', if_neg h2', if_neg h34]
      simp only [hcons, ho_eq]
    · intro q hq hqp
      have hq_cand : q ∈ (validIds c ratings).filter (fun q => q ≠ p) :=
        List.mem_filter.mpr ⟨hq, by simpa using hqp⟩
      exact ho_min q hq_cand



/-- A two-member incomplete cluster over `wState`'s ratings. -/
def wCluster : Cluster := ⟨"cluster_0000", ["a", "b"], none, false⟩

/-- Witness for C5: the empty iteration yields no pair, and a concrete
non-converged two-photo cluster yields a max-sigma / closest-mu pair. -/
theorem select_intra_cluster_pair_spec_witness :
    select_intra_cluster_pair [] wState.ratings = none ∧
      ∃ p o, select_intra_cluster_pair [wCluster] wState.ratings = some (p, o) ∧
        p ∈ validIds wCluster wState.ratings ∧
        (∀ q ∈ validIds wCluster wState.ratings,
          sigmaD wState.ratings q ≤ sigmaD wState.ratings p) ∧
        o ∈ validIds wCluster wState.ratings ∧ o ≠ p ∧
        (∀ q ∈ validIds wCluster wState.ratings, q ≠ p →
          |muD wState.ratings o - muD wState.ratings p| ≤
            |muD wState.ratings q - muD wState.ratings p|) :=
  ⟨(select_intra_cluster_pair_spec wState.ratings).1,
    (select_intra_cluster_pair_spec wState.ratings).2.2 wCluster []
      (by
        simp [skipCluster, validIds, avgSigma, minMatches, requiredMatches,
          sigmaD, matchesD, lookupA, wState, PhotoRating.default, wCluster]
        norm_num)
      (by decide)⟩




/-- Decimal parse, inverse to `toDec` on its image. -/
def decVal (l : List Char) : Nat :=
  l.foldl (fun a c => a * 10 + (c.toNat - 48)) 0

theorem digitChar_toNat : ∀ n, n < 10 → (Nat.digitChar n).toNat = 48 + n := by decide

theorem decVal_go_toDecAux : ∀ (fuel n : Nat), n < fuel →
    (toDecAux fuel n).foldl (fun a c => a * 10 + (c.toNat - 48)) 0 = n := by
  intro fuel
  induction fuel with
  | zero => omega
  | succ fuel ih =>
    intro n hn
    unfold toDecAux
    by_cases h : n < 10
    · simp only [h, if_true, List.foldl_cons, List.foldl_nil]
      rw [digitChar_toNat n h]
      omega
    · simp only [h, if_false, List.foldl_append, List.foldl_cons, List.foldl_nil]
      have hdiv : n / 10 < fuel := by omega
      rw [ih (n / 10) hdiv, digitChar_toNat (n % 10) (by omega)]
      omega

theorem decVal_replicate_zero (k : Nat) (l : List Char) :
    (List.replicate k '0' ++ l).foldl (fun a c => a * 10 + (c.toNat - 48)) 0 =
      l.foldl (fun a c => a * 10 + (c.toNat - 48)) 0 := by
  induction k with
  | zero => simp
  | succ k ih => simpa using ih

theorem decVal_pad4 (n : Nat) : decVal (pad4 n) = n := by
  unfold decVal pad4
  rw [decVal_replicate_zero]
  exact decVal_go_toDecAux (n + 1) n (Nat.lt_succ_self n)

theorem pad4_inj {m n : Nat} (h : pad4 m = pad4 n) : m = n := by
  rw [← decVal_pad4 m, ← decVal_pad4 n, h]

theorem mkClusterId_inj {m n : Nat} (h : mkClusterId m = mkClusterId n) : m = n := by
  unfold mkClusterId at h
  have hd := congrArg String.data h
  simp only [String.data_append] at hd
  have : pad4 m = pad4 n := List.append_cancel_left hd
  exact pad4_inj this



/-- Loop invariant of `cluster_photos`: every cluster key was minted by the
counter, and every representative names an existing cluster. -/
structure CInv (st : CState) : Prop where
  keys_bound : ∀ cid ∈ keysA st.clusters, ∃ k, k < st.cluster_count ∧ cid = mkClusterId k
  reps_keys : ∀ pr ∈ st.cluster_reps, pr.1 ∈ keysA st.clusters

/-- `id` sits in exactly one cluster, the one `photo_to_cluster` names. -/
def PAssigned (st : CState) (id : String) : Prop :=
  ∃ cid members, lookupA st.photo_to_cluster id = some cid ∧
    lookupA st.clusters cid = some members ∧ id ∈ members ∧
    ∀ cid₂ members₂, lookupA st.clusters cid₂ = some members₂ →
      id ∈ members₂ → cid₂ = cid

/-- `id` appears nowhere in the clustering state. -/
def PFresh (st : CState) (id : String) : Prop :=
  lookupA st.photo_to_cluster id = none ∧
  ∀ cid members, lookupA st.clusters cid = some members → id ∉ members

theorem findRep_mem {reps : List (String × String)} {hash cid : String}
    (h : findRep reps hash = some cid) : ∃ rep, (cid, rep) ∈ reps := by
  induction reps with
  | nil => simp [findRep] at h
  | cons pr rest ih =>
    obtain ⟨c, r⟩ := pr
    unfold findRep at h
    by_cases hd : hamming_distance hash r ≤ HAMMING_THRESHOLD
    · rw [if_pos hd] at h
      obtain rfl : c = cid := by injection h
      exact ⟨r, List.mem_cons_self _ _⟩
    · rw [if_neg hd] at h
      obtain ⟨rep, hrep⟩ := ih h
      exact ⟨rep, List.mem_cons_of_mem _ hrep⟩

theorem clusterStep_skip (st : CState) (p : String × String)
    (h : p.2.length ≠ 64) : clusterStep st p = st := by
  unfold clusterStep
  rw [if_pos h]

theorem clusterStep_some (st : CState) (p : String × String) (cid : String)
    (h : ¬ p.2.length ≠ 64) (hf : findRep st.cluster_reps p.2 = some cid) :
    clusterStep st p =
      { st with
        clusters := updA st.clusters cid (fun members => members ++ [p.1]),
        photo_to_cluster := insertA st.photo_to_cluster p.1 cid } := by
  unfold clusterStep
  rw [if_neg h, hf]

theorem clusterStep_none (st : CState) (p : String × String)
    (h : ¬ p.2.length ≠ 64) (hf : findRep st.cluster_reps p.2 = none) :
    clusterStep st p =
      { st with
        clusters := insertA st.clusters (mkClusterId st.cluster_count) [p.1],
        photo_to_cluster :=
          insertA st.photo_to_cluster p.1 (mkClusterId st.cluster_count),
        cluster_reps := st.cluster_reps ++ [(mkClusterId st.cluster_count, p.2)],
        cluster_count := st.cluster_count + 1 } := by
  unfold clusterStep
  rw [if_neg h, hf]

theorem fresh_cluster_id {st : CState} (hinv : CInv st) :
    lookupA st.clusters (mkClusterId st.cluster_count) = none := by
  apply lookupA_none_of_not_mem_keys
  intro hmem
  obtain ⟨k, hk, heq⟩ := hinv.keys_bound _ hmem
  exact absurd (mkClusterId_inj heq.symm) (by omega)

theorem clusterStep_inv {st : CState} (p : String × String) (hinv : CInv st) :
    CInv (clusterStep st p) := by
  obtain ⟨pid, hash⟩ := p
  by_cases hlen : (Prod.mk pid hash).2.length ≠ 64
  · rw [clusterStep_skip _ _ hlen]; exact hinv
  · cases hfind : findRep st.cluster_reps (Prod.mk pid hash).2 with
    | some cid =>
      rw [clusterStep_some _ _ _ hlen hfind]
      dsimp only
      constructor
      · intro cid₂ hmem
        rw [keysA_updA] at hmem
        exact hinv.keys_bound _ hmem
      · intro pr hpr
        rw [keysA_updA]
        exact hinv.reps_keys _ hpr
    | none =>
      rw [clusterStep_none _ _ hlen hfind]
      dsimp only
      have hfreshk := fresh_cluster_id hinv
      have hkeys : keysA (insertA st.clusters (mkClusterId st.cluster_count) [pid]) =
          keysA st.clusters ++ [mkClusterId st.cluster_count] := by
        unfold insertA
        rw [if_neg (by simp [hfreshk]), keysA_append]
        rfl
      constructor
      · intro cid₂ hmem
        simp only [hkeys, List.mem_append, List.mem_singleton] at hmem
        rcases hmem with hmem | hmem
        · obtain ⟨k, hk, heq⟩ := hinv.keys_bound _ hmem
          exact ⟨k, by show k < st.cluster_count + 1; omega, heq⟩
        · exact ⟨st.cluster_count, by show st.cluster_count < st.cluster_count + 1; omega, hmem⟩
      · intro pr hpr
        simp only [List.mem_append, List.mem_singleton] at hpr
        rw [hkeys]
        rcases hpr with hpr | hpr
        · exact List.mem_append_left _ (hinv.reps_keys _ hpr)
        · subst hpr
          exact List.mem_append_right _ (by simp)



theorem clusterStep_preserves_fresh {st : CState} {id : String}
    (p : String × String) (hne : p.1 ≠ id)
    (hf : PFresh st id) : PFresh (clusterStep st p) id := by
  obtain ⟨pid, hash⟩ := p
  obtain ⟨hp2c, hcl⟩ := hf
  by_cases hlen : (Prod.mk pid hash).2.length ≠ 64
  · rw [clusterStep_skip _ _ hlen]; exact ⟨hp2c, hcl⟩
  · cases hfind : findRep st.cluster_reps (Prod.mk pid hash).2 with
    | some cid =>
      rw [clusterStep_some _ _ _ hlen hfind]
      refine ⟨?_, ?_⟩
      · show lookupA (insertA st.photo_to_cluster pid cid) id = none
        rw [lookupA_insertA_ne _ _ _ _ hne]
        exact hp2c
      · show ∀ cid₂ members₂,
          lookupA (updA st.clusters cid (fun members => members ++ [pid])) cid₂ =
            some members₂ → id ∉ members₂
        intro cid₂ members₂ hm
        rw [lookupA_updA] at hm
        by_cases hc : cid = cid₂
        · rw [if_pos hc] at hm
          cases ho : lookupA st.clusters cid₂ with
          | none => rw [ho] at hm; simp at hm
          | some old =>
            rw [ho] at hm
            rw [Option.map_some'] at hm
            obtain rfl : old ++ [pid] = members₂ := by injection hm
            intro hidm
            rcases List.mem_append.mp hidm with hin | hin
            · exact hcl _ _ ho hin
            · simp at hin
              exact hne hin.symm
        · rw [if_neg hc] at hm
          exact hcl _ _ hm
    | none =>
      rw [clusterStep_none _ _ hlen hfind]
      refine ⟨?_, ?_⟩
      · show lookupA (insertA st.photo_to_cluster pid (mkClusterId st.cluster_count)) id = none
        rw [lookupA_insertA_ne _ _ _ _ hne]
        exact hp2c
      · show ∀ cid₂ members₂,
          lookupA (insertA st.clusters (mkClusterId st.cluster_count) [pid]) cid₂ =
            some members₂ → id ∉ members₂
        intro cid₂ members₂ hm
        by_cases hc : mkClusterId st.cluster_count = cid₂
        · subst hc
          rw [lookupA_insertA_self] at hm
          obtain rfl : [pid] = members₂ := by injection hm
          intro hidm
          simp at hidm
          exact hne hidm.symm
        · rw [lookupA_insertA_ne _ _ _ _ hc] at hm
          exact hcl _ _ hm

theorem clusterStep_preserves_assigned {st : CState} {id : String}
    (p : String × String) (hne : p.1 ≠ id) (hinv : CInv st)
    (ha : PAssigned st id) : PAssigned (clusterStep st p) id := by
  obtain ⟨pid, hash⟩ := p
  obtain ⟨cid, members, hp2c, hcl, hmem, huniq⟩ := ha
  by_cases hlen : (Prod.mk pid hash).2.length ≠ 64
  · rw [clusterStep_skip _ _ hlen]; exact ⟨cid, members, hp2c, hcl, hmem, huniq⟩
  · cases hfind : findRep st.cluster_reps (Prod.mk pid hash).2 with
    | some cid₀ =>
      rw [clusterStep_some _ _ _ hlen hfind]
      dsimp only
      by_cases hc : cid₀ = cid
      · refine ⟨cid, members ++ [pid], ?_, ?_, List.mem_append_left _ hmem, ?_⟩
        · rw [lookupA_insertA_ne _ _ _ _ hne]; exact hp2c
        · rw [lookupA_updA, if_pos hc, hcl]; rfl
        · intro cid₂ members₂ hm hidm
          rw [lookupA_updA] at hm
          by_cases hc₂ : cid₀ = cid₂
          · rw [if_pos hc₂] at hm
            cases ho : lookupA st.clusters cid₂ with
            | none => rw [ho] at hm; simp at hm
            | some old =>
              rw [ho] at hm
              rw [Option.map_some'] at hm
              obtain rfl : old ++ [pid] = members₂ := by injection hm
              rcases List.mem_append.mp hidm with hin | hin
              · exact huniq _ _ ho hin
              · simp at hin
                exact absurd hin.symm hne
          · rw [if_neg hc₂] at hm
            exact huniq _ _ hm hidm
      · refine ⟨cid, members, ?_, ?_, hmem, ?_⟩
        · rw [lookupA_insertA_ne _ _ _ _ hne]; exact hp2c
        · rw [lookupA_updA, if_neg hc]; exact hcl
        · intro cid₂ members₂ hm hidm
          rw [lookupA_updA] at hm
          by_cases hc₂ : cid₀ = cid₂
          · rw [if_pos hc₂] at hm
            cases ho : lookupA st.clusters cid₂ with
            | none => rw [ho] at hm; simp at hm
            | some old =>
              rw [ho] at hm
              rw [Option.map_some'] at hm
              obtain rfl : old ++ [pid] = members₂ := by injection hm
              rcases List.mem_append.mp hidm with hin | hin
              · exact huniq _ _ ho hin
              · simp at hin
                exact absurd hin.symm hne
          · rw [if_neg hc₂] at hm
            exact huniq _ _ hm hidm
    | none =>
      rw [clusterStep_none _ _ hlen hfind]
      dsimp only
      have hfreshk := fresh_cluster_id hinv
      have hcid_ne : mkClusterId st.cluster_count ≠ cid := by
        intro heq
        rw [heq, hcl] at hfreshk
        cases hfreshk
      refine ⟨cid, members, ?_, ?_, hmem, ?_⟩
      · rw [lookupA_insertA_ne _ _ _ _ hne]; exact hp2c
      · rw [lookupA_insertA_ne _ _ _ _ hcid_ne]; exact hcl
      · intro cid₂ members₂ hm hidm
        by_cases hc₂ : mkClusterId st.cluster_count = cid₂
        · subst hc₂
          rw [lookupA_insertA_self] at hm
          obtain rfl : [pid] = members₂ := by injection hm
          simp at hidm
          exact absurd hidm.symm hne
        · rw [lookupA_insertA_ne _ _ _ _ hc₂] at hm
          exact huniq _ _ hm hidm



theorem clusterStep_assigns {st : CState} {id hash : String}
    (hlen : hash.length = 64) (hinv : CInv st) (hf : PFresh st id) :
    PAssigned (clusterStep st (id, hash)) id := by
  obtain ⟨hp2c, hcl⟩ := hf
  have hlen' : ¬ (Prod.mk id hash).2.length ≠ 64 := by simpa using hlen
  cases hfind : findRep st.cluster_reps (Prod.mk id hash).2 with
  | some cid =>
    rw [clusterStep_some _ _ _ hlen' hfind]
    dsimp only
    obtain ⟨rep, hrep⟩ := findRep_mem hfind
    have hkey : cid ∈ keysA st.clusters := hinv.reps_keys _ hrep
    obtain ⟨members, hmembers⟩ :=
      Option.isSome_iff_exists.mp (lookupA_isSome_of_mem_keys _ _ hkey)
    refine ⟨cid, members ++ [id], lookupA_insertA_self _ _ _, ?_,
      List.mem_append_right _ (by simp), ?_⟩
    · rw [lookupA_updA, if_pos rfl, hmembers]; rfl
    · intro cid₂ members₂ hm hidm
      rw [lookupA_updA] at hm
      by_cases hc₂ : cid = cid₂
      · exact hc₂.symm
      · rw [if_neg hc₂] at hm
        exact absurd hidm (hcl _ _ hm)
  | none =>
    rw [clusterStep_none _ _ hlen' hfind]
    dsimp only
    have hfreshk := fresh_cluster_id hinv
    refine ⟨mkClusterId st.cluster_count, [id], lookupA_insertA_self _ _ _, ?_,
      by simp, ?_⟩
    · rw [show (insertA st.clusters (mkClusterId st.cluster_count) [id]) =
          st.clusters ++ [(mkClusterId st.cluster_count, [id])] by
            unfold insertA; rw [if_neg (by simp [hfreshk])]]
      rw [lookupA_append, hfreshk]
      simp
    · intro cid₂ members₂ hm hidm
      by_cases hc₂ : mkClusterId st.cluster_count = cid₂
      · exact hc₂.symm
      · rw [lookupA_insertA_ne _ _ _ _ hc₂] at hm
        exact absurd hidm (hcl _ _ hm)

theorem foldl_clusterStep_inv (rest : List (String × String)) (st : CState)
    (hinv : CInv st) : CInv (rest.foldl clusterStep st) := by
  induction rest generalizing st with
  | nil => exact hinv
  | cons p t ih => exact ih _ (clusterStep_inv p hinv)

theorem foldl_preserves_fresh (rest : List (String × String)) (st : CState)
    (id : String) (hne : ∀ pr ∈ rest, pr.1 ≠ id)
    (hf : PFresh st id) : PFresh (rest.foldl clusterStep st) id := by
  induction rest generalizing st with
  | nil => exact hf
  | cons p t ih =>
    exact ih _ (fun pr hpr => hne pr (List.mem_cons_of_mem _ hpr))
      (clusterStep_preserves_fresh p (hne p (List.mem_cons_self _ _)) hf)

theorem foldl_preserves_assigned (rest : List (String × String)) (st : CState)
    (id : String) (hne : ∀ pr ∈ rest, pr.1 ≠ id) (hinv : CInv st)
    (ha : PAssigned st id) : PAssigned (rest.foldl clusterStep st) id := by
  induction rest generalizing st with
  | nil => exact ha
  | cons p t ih =>
    exact ih _ (fun pr hpr => hne pr (List.mem_cons_of_mem _ hpr))
      (clusterStep_inv p hinv)
      (clusterStep_preserves_assigned p (hne p (List.mem_cons_self _ _)) hinv ha)

theorem cluster_photos_go (rest : List (String × String)) :
    ∀ (st : CState), CInv st → (rest.map Prod.fst).Nodup →
      (∀ pr ∈ rest, PFresh st pr.1) →
      ∀ id hash, (id, hash) ∈ rest →
        (hash.length = 64 → PAssigned (rest.foldl clusterStep st) id) ∧
        (hash.length ≠ 64 → PFresh (rest.foldl clusterStep st) id) := by
  induction rest with
  | nil => intro st _ _ _ id hash hmem; simp at hmem
  | cons p t ih =>
    intro st hinv hnodup hfresh id hash hmem
    obtain ⟨pid, ph⟩ := p
    have hnodup_t : (t.map Prod.fst).Nodup := (List.nodup_cons.mp hnodup).2
    have hhead_notin : pid ∉ t.map Prod.fst := (List.nodup_cons.mp hnodup).1
    have hfresh_t : ∀ pr ∈ t, PFresh (clusterStep st (pid, ph)) pr.1 := by
      intro pr hpr
      have hne : pid ≠ pr.1 := by
        intro heq
        exact hhead_notin (heq ▸ List.mem_map_of_mem _ hpr)
      exact clusterStep_preserves_fresh _ hne (hfresh pr (List.mem_cons_of_mem _ hpr))
    rcases List.mem_cons.mp hmem with hmem | hmem
    · obtain ⟨rfl, rfl⟩ : pid = id ∧ ph = hash := by
        injection hmem with h1 h2
        exact ⟨h1.symm, h2.symm⟩
      have hne_t : ∀ pr ∈ t, pr.1 ≠ pid := by
        intro pr hpr heq
        exact hhead_notin (heq ▸ List.mem_map_of_mem _ hpr)
      constructor
      · intro hlen
        rw [List.foldl_cons]
        exact foldl_preserves_assigned t _ _ hne_t (clusterStep_inv _ hinv)
          (clusterStep_assigns hlen hinv (hfresh _ (List.mem_cons_self _ _)))
      · intro hlen
        rw [List.foldl_cons, clusterStep_skip _ _ (by simpa using hlen)]
        exact foldl_preserves_fresh t _ _ hne_t (hfresh _ (List.mem_cons_self _ _))
    · rw [List.foldl_cons]
      exact ih _ (clusterStep_inv _ hinv) hnodup_t hfresh_t id hash hmem



/-- Claim C9: clustering partition invariant. For any iteration order of a
map with distinct photo ids, `cluster_photos` puts every photo whose
fingerprint is exactly 64 characters into exactly one cluster and records
that same cluster in `photo_to_cluster`, while every photo with any other
fingerprint length is absent from both outputs. -/
theorem cluster_photos_partition (input : List (String × String))
    (hnodup : (input.map Prod.fst).Nodup)
    (id hash : String) (hmem : (id, hash) ∈ input) :
    (hash.length = 64 →
      ∃ cid members,
        lookupA (cluster_photos input).2 id = some cid ∧
        lookupA (cluster_photos input).1 cid = some members ∧
        id ∈ members ∧
        ∀ cid₂ members₂, lookupA (cluster_photos input).1 cid₂ = some members₂ →
          id ∈ members₂ → cid₂ = cid) ∧
    (hash.length ≠ 64 →
      lookupA (cluster_photos input).2 id = none ∧
      ∀ cid members, lookupA (cluster_photos input).1 cid = some members →
        id ∉ members) := by
  have hinit_inv : CInv ⟨[], [], [], 0⟩ := by
    constructor
    · intro cid hm; simp [keysA] at hm
    · intro pr hm; simp at hm
  have hinit_fresh : ∀ pr ∈ input, PFresh ⟨[], [], [], 0⟩ pr.1 := by
    intro pr _
    exact ⟨rfl, by intro cid members hm; simp at hm⟩
  have hgo := cluster_photos_go input ⟨[], [], [], 0⟩ hinit_inv hnodup hinit_fresh
    id hash hmem
  constructor
  · intro hlen
    exact hgo.1 hlen
  · intro hlen
    exact hgo.2 hlen

/-- Witness for claim C9 on a concrete two-photo input (one valid 64-char
fingerprint, one 3-char fingerprint). -/
theorem cluster_photos_partition_witness :
    (("0000000000000000000000000000000000000000000000000000000000000000" : String).length = 64 →
      ∃ cid members,
        lookupA (cluster_photos [("a", "0000000000000000000000000000000000000000000000000000000000000000"), ("c", "xyz")]).2 "a" = some cid ∧
        lookupA (cluster_photos [("a", "0000000000000000000000000000000000000000000000000000000000000000"), ("c", "xyz")]).1 cid = some members ∧
        "a" ∈ members ∧
        ∀ cid₂ members₂, lookupA (cluster_photos [("a", "0000000000000000000000000000000000000000000000000000000000000000"), ("c", "xyz")]).1 cid₂ = some members₂ →
          "a" ∈ members₂ → cid₂ = cid) ∧
    (("0000000000000000000000000000000000000000000000000000000000000000" : String).length ≠ 64 →
      lookupA (cluster_photos [("a", "0000000000000000000000000000000000000000000000000000000000000000"), ("c", "xyz")]).2 "a" = none ∧
      ∀ cid members, lookupA (cluster_photos [("a", "0000000000000000000000000000000000000000000000000000000000000000"), ("c", "xyz")]).1 cid = some members →
        "a" ∉ members) :=
  cluster_photos_partition _ (by decide) "a" _ (by decide)

/-- Claim C8 (refuting evidence): `cluster_photos` is order-dependent. The
two lists below are permutations of each other — the same input map in the
two iteration orders a std HashMap may produce — yet photo "a" is mapped
to "cluster_0000" under one order and to "cluster_0001" under the other,
so cluster ids, contents and representatives are not run-independent. -/
theorem cluster_photos_order_dependent :
    ([("a", "0000000000000000000000000000000000000000000000000000000000000000"),
      ("b", "ffffffffffffffffffffffffffffffffffffffffffffffffffffffffffffffff")] :
        List (String × String)).Perm
      [("b", "ffffffffffffffffffffffffffffffffffffffffffffffffffffffffffffffff"),
       ("a", "0000000000000000000000000000000000000000000000000000000000000000")] ∧
    lookupA (cluster_photos
      [("a", "0000000000000000000000000000000000000000000000000000000000000000"),
       ("b", "ffffffffffffffffffffffffffffffffffffffffffffffffffffffffffffffff")]).2 "a" =
      some "cluster_0000" ∧
    lookupA (cluster_photos
      [("b", "ffffffffffffffffffffffffffffffffffffffffffffffffffffffffffffffff"),
       ("a", "0000000000000000000000000000000000000000000000000000000000000000")]).2 "a" =
      some "cluster_0001" :=
  ⟨List.Perm.swap _ _ _, by decide, by decide⟩


end PhotoTinder
